import Mathlib

/-!
Verification of the transport layer of `gluon_language-server`
(`src/rpc.rs` and `src/async_io.rs`).

The development shallowly embeds three components:

* the framing codec (`LanguageServerDecoder::decode`, `decode_parser`,
  `write_message_str`, `LanguageServerEncoder::encode` in `src/rpc.rs`);
* the debounce queue (`UniqueStream::poll` in `src/rpc.rs`);
* the blocking-read bridge (`AsyncRead::read` / `AsyncRead::handle_input`
  in `src/async_io.rs`).

Rust `String` values are modelled as their UTF-8 byte sequences
(`List UInt8`) together with the validity predicate `utf8Valid`, which is
exactly the invariant Rust's `String` maintains; `String::len` is the byte
length, so `List.length` matches it.
-/

/-! ## Framing grammar (embedding of `decode_parser` in `src/rpc.rs`)

The Rust decoder is a `combine` parser with resumable partial state:

  (skip_many(range "\r\n"), "Content-Length: " digits, range "\r\n\r\n")
    .then_partial(take(message_length))

We embed it as an explicit state machine over the full accumulated input.
`ParseResult.moreInput c` models the "need more input" outcome of
`combine::stream::decode`, where `c` is the number of bytes the resumable
state has committed (a `range` commits only once it matches in full, and
`take` is atomic, exactly as in `combine`); `ParseResult.failed p` models a
terminal parse error positioned at byte `p`.
-/

inductive ParseResult where
  | done (body : List UInt8) (consumed : Nat)
  | moreInput (committed : Nat)
  | failed (pos : Nat)
deriving Repr, DecidableEq

inductive RangeMatch where
  | matched (rest : List UInt8)
  | needMore
  | mismatch
deriving Repr, DecidableEq

/-- Embedding of `combine`'s `range` parser: it requests `pat.length` bytes
from the stream; with fewer bytes available it reports end-of-input (which
partial decoding surfaces as "need more input"), and only with enough bytes
does it compare and report a mismatch. -/
def matchRange (pat inp : List UInt8) : RangeMatch :=
  if inp.length < pat.length then .needMore
  else if inp.take pat.length = pat then .matched (inp.drop pat.length)
  else .mismatch

/-- The bytes of the ASCII string `s` (all source literals are ASCII). -/
def strBytes (s : String) : List UInt8 :=
  s.data.map (fun c => UInt8.ofNat c.toNat)

/-- The header literal `"Content-Length: "` from `decode_parser`. -/
def contentLengthBytes : List UInt8 := strBytes "Content-Length: "

/-- The separator literal `"\r\n"` from `decode_parser`. -/
def crlfBytes : List UInt8 := strBytes "\r\n"

/-- The header terminator literal `"\r\n\r\n"` from `decode_parser`. -/
def crlf2Bytes : List UInt8 := strBytes "\r\n\r\n"

/-- `combine::parser::byte::digit`: an ASCII decimal digit. -/
def isDigit (b : UInt8) : Bool := 48 ≤ b && b ≤ 57

/-- Numeric value of an ASCII digit byte. -/
def digitVal (b : UInt8) : Nat := b.toNat - 48

/-- `usize::MAX + 1` on the 64-bit targets the server is built for;
`str::parse::<usize>` in `decode_parser` fails on values at or above it. -/
def usizeBound : Nat := 2 ^ 64

/-- The value `str::parse::<usize>` computes from a digit string. -/
def decValue (ds : List UInt8) : Nat :=
  ds.foldl (fun a b => a * 10 + digitVal b) 0

/-- Body stage: `take(message_length)` — atomic, needs all `len` bytes. -/
def parseBody (inp : List UInt8) (pos len : Nat) : ParseResult :=
  if len ≤ inp.length then .done (inp.take len) (pos + len)
  else .moreInput pos

/-- Terminator stage: `range(b"\r\n\r\n")` then the body. -/
def parseTerm (inp : List UInt8) (pos len : Nat) : ParseResult :=
  match matchRange crlf2Bytes inp with
  | .matched rest => parseBody rest (pos + 4) len
  | .needMore => .moreInput pos
  | .mismatch => .failed pos

/-- Digit-accumulation stage of `recognize(skip_many1(digit)).and_then(parse)`:
consumes digits, and at the first non-digit checks the parsed value against
`usize::MAX` (the `and_then` conversion error). -/
def parseDigitsLoop (inp : List UInt8) (pos acc : Nat) : ParseResult :=
  match inp with
  | [] => .moreInput pos
  | b :: rest =>
    if isDigit b then parseDigitsLoop rest (pos + 1) (acc * 10 + digitVal b)
    else if acc < usizeBound then parseTerm (b :: rest) pos acc
    else .failed pos

/-- `skip_many1(digit)`: at least one digit is required. -/
def parseDigits (inp : List UInt8) (pos : Nat) : ParseResult :=
  match inp with
  | [] => .moreInput pos
  | b :: rest =>
    if isDigit b then parseDigitsLoop rest (pos + 1) (digitVal b)
    else .failed pos

/-- Header stage: `range(b"Content-Length: ")` then the length digits. -/
def parseHeader (inp : List UInt8) (pos : Nat) : ParseResult :=
  match matchRange contentLengthBytes inp with
  | .matched rest => parseDigits rest (pos + 16)
  | .needMore => .moreInput pos
  | .mismatch => .failed pos

/-- Leading separators: `skip_many(range(b"\r\n"))`. A full `"\r\n"` is
consumed and committed; with fewer than two bytes left the `range` reports
end-of-input (need more); on a two-byte mismatch `skip_many` stops and the
header parser takes over. -/
def parseSeps : List UInt8 → Nat → ParseResult
  | [], pos => .moreInput pos
  | [_], pos => .moreInput pos
  | b1 :: b2 :: rest, pos =>
    if b1 = 13 ∧ b2 = 10 then parseSeps rest (pos + 2)
    else parseHeader (b1 :: b2 :: rest) pos

/-- One attempt of the whole frame grammar of `decode_parser` on the
accumulated input. -/
def parseFrame (inp : List UInt8) : ParseResult := parseSeps inp 0

/-! ## UTF-8 validity (Rust `String::from_utf8`) -/

/-- A UTF-8 continuation byte. -/
def contOk (b : UInt8) : Bool := 128 ≤ b && b ≤ 191

/-- Validity per RFC 3629, as checked by Rust's `String::from_utf8`:
no overlong encodings, no surrogates, maximum scalar value `0x10FFFF`.
The fuel argument (any value at least the list length; the wrapper passes
the length) keeps the recursion structural. -/
def utf8ValidAux : Nat → List UInt8 → Bool
  | 0, l => l.isEmpty
  | _ + 1, [] => true
  | fuel + 1, b :: rest =>
    if b ≤ 127 then utf8ValidAux fuel rest
    else if 194 ≤ b && b ≤ 223 then
      match rest with
      | c1 :: r => contOk c1 && utf8ValidAux fuel r
      | [] => false
    else if b = 224 then
      match rest with
      | c1 :: c2 :: r => (160 ≤ c1 && c1 ≤ 191) && contOk c2 && utf8ValidAux fuel r
      | _ => false
    else if 225 ≤ b && b ≤ 236 then
      match rest with
      | c1 :: c2 :: r => contOk c1 && contOk c2 && utf8ValidAux fuel r
      | _ => false
    else if b = 237 then
      match rest with
      | c1 :: c2 :: r => (128 ≤ c1 && c1 ≤ 159) && contOk c2 && utf8ValidAux fuel r
      | _ => false
    else if 238 ≤ b && b ≤ 239 then
      match rest with
      | c1 :: c2 :: r => contOk c1 && contOk c2 && utf8ValidAux fuel r
      | _ => false
    else if b = 240 then
      match rest with
      | c1 :: c2 :: c3 :: r =>
        (144 ≤ c1 && c1 ≤ 191) && contOk c2 && contOk c3 && utf8ValidAux fuel r
      | _ => false
    else if 241 ≤ b && b ≤ 243 then
      match rest with
      | c1 :: c2 :: c3 :: r => contOk c1 && contOk c2 && contOk c3 && utf8ValidAux fuel r
      | _ => false
    else if b = 244 then
      match rest with
      | c1 :: c2 :: c3 :: r =>
        (128 ≤ c1 && c1 ≤ 143) && contOk c2 && contOk c3 && utf8ValidAux fuel r
      | _ => false
    else false

def utf8Valid (l : List UInt8) : Bool := utf8ValidAux l.length l

/-! ## `LanguageServerDecoder` (`src/rpc.rs`, `impl Decoder`)

The Rust decoder holds an `AnySendPartialState`. For this deterministic
grammar, the resumable state after committing a byte prefix `c` behaves
exactly like the fresh parser applied to `c ++ future input`; we therefore
represent the state by the committed byte prefix itself. Each `decode` call
runs the grammar on `state ++ src`; `removed_len` (the bytes
`src.split_to` removes from the caller's buffer) is the newly committed
byte count relative to this call's buffer `src`.

Besides the value it returns, the Rust `decode` can abort the process: it
calls `str::from_utf8(..).unwrap()` on raw buffer slices in three places —
on the whole buffer inside the `map_err` closure when the parse fails
(rpc.rs:297), and, after every successful parse, on the consumed slice
`&src[..removed_len]` and on the remaining tail `&src[removed_len..]` in
the two debug `eprintln!` statements (rpc.rs:301-305). Each of these
panics whenever its slice is not valid UTF-8. `DecodeResult.panicked`
models exactly these aborts, in the order the code performs the checks. -/

inductive DecodeError where
  /-- `combine` parse failure, reported with the position and the caller's
  buffer bytes (the Rust code formats both into a `failure::Error`). -/
  | parseFailure (pos : Nat) (input : List UInt8)
  /-- `String::from_utf8` failure on the message body
  (`String::from_utf8(output)?` at rpc.rs:312). -/
  | invalidUtf8 (bytes : List UInt8)
deriving Repr, DecidableEq

structure LanguageServerDecoder where
  state : List UInt8
deriving Repr, DecidableEq

/-- `LanguageServerDecoder::new`. -/
def LanguageServerDecoder.new : LanguageServerDecoder := ⟨[]⟩

/-- Result of a `decode` call that returned normally: the optional message,
the decoder with its updated parse state, and the bytes left in the
caller's buffer. -/
structure DecodeOk where
  message : Option (List UInt8)
  decoder : LanguageServerDecoder
  remaining : List UInt8
deriving Repr, DecidableEq

/-- Outcome of one `decode` call: a process abort from one of the
`str::from_utf8(..).unwrap()` calls, an error return, or a normal return. -/
inductive DecodeResult where
  | panicked
  | failed (e : DecodeError)
  | ok (r : DecodeOk)
deriving Repr, DecidableEq

/-- `LanguageServerDecoder::decode`. On a parse failure the `map_err`
closure formats the buffer with `str::from_utf8(src).unwrap()` before the
error is returned; on a successful parse the two debug `eprintln!` lines
unwrap `str::from_utf8` of the consumed slice and of the remaining tail
before `split_to` runs and the body is converted. -/
def LanguageServerDecoder.decode (d : LanguageServerDecoder) (src : List UInt8) :
    DecodeResult :=
  let input := d.state ++ src
  match parseFrame input with
  | .done body consumed =>
    let removed := consumed - d.state.length
    if utf8Valid (src.take removed) then
      if utf8Valid (src.drop removed) then
        if utf8Valid body then .ok ⟨some body, ⟨[]⟩, src.drop removed⟩
        else .failed (.invalidUtf8 body)
      else .panicked
    else .panicked
  | .moreInput c =>
    let removed := c - d.state.length
    if utf8Valid (src.take removed) then
      if utf8Valid (src.drop removed) then
        .ok ⟨none, ⟨input.take c⟩, src.drop removed⟩
      else .panicked
    else .panicked
  | .failed pos =>
    if utf8Valid src then .failed (.parseFailure pos src)
    else .panicked

/-! ## Encoder (`write_message_str`, `LanguageServerEncoder::encode`) -/

/-- Decimal digits of `n`, most significant first — the bytes `write!`'s
formatting of `response.len()` produces. Structural recursion with a
fuel argument (`fuel > n` suffices). -/
def natDecDigitsAux : Nat → Nat → List UInt8
  | 0, _ => []
  | fuel + 1, n =>
    if n < 10 then [UInt8.ofNat (48 + n)]
    else natDecDigitsAux fuel (n / 10) ++ [UInt8.ofNat (48 + n % 10)]

def natDecDigits (n : Nat) : List UInt8 := natDecDigitsAux (n + 1) n

/-- `write_message_str`: appends
the format string Content-Length, space, the payload byte length in
decimal, CRLF CRLF, then the payload, to the output. -/
def write_message_str (output response : List UInt8) : List UInt8 :=
  output ++ (contentLengthBytes ++ natDecDigits response.length
    ++ crlf2Bytes ++ response)

/-- `LanguageServerEncoder::encode`: `write_message_str(dst.writer(), &item)`. -/
def LanguageServerEncoder.encode (item dst : List UInt8) : List UInt8 :=
  write_message_str dst item

/-- Aggregate outcome of feeding a sequence of chunks: the first panic or
error stops the run, otherwise all produced messages are collected. -/
inductive FeedResult where
  | panicked
  | failed (e : DecodeError)
  | ok (msgs : List (List UInt8))
deriving Repr, DecidableEq

/-- Driver corresponding to feeding the decoder successive chunks the way
`tokio_io`'s framed transport does: the bytes `decode` leaves in the buffer
are prepended to the next chunk, the decoder state is threaded through, and
every produced message is collected. -/
def feedChunks (d : LanguageServerDecoder) (buf : List UInt8)
    (chunks : List (List UInt8)) (acc : List (List UInt8)) : FeedResult :=
  match chunks with
  | [] => .ok acc
  | c :: cs =>
    match d.decode (buf ++ c) with
    | .panicked => .panicked
    | .failed e => .failed e
    | .ok out => feedChunks out.decoder out.remaining cs (acc ++ out.message.toList)

/-- The exact wire bytes of one frame with length digits `ds` and body
`body` (no leading separator lines). -/
def frameBytes (ds body : List UInt8) : List UInt8 :=
  contentLengthBytes ++ ds ++ crlf2Bytes ++ body

/-- The number of bytes the resumable parse state has committed after
seeing the first `k` bytes of a frame whose digit field has `dsLen` bytes:
nothing inside the atomic "Content-Length: " literal, every byte of the
digit field, nothing inside the atomic terminator, and nothing of the
atomic body. -/
def committedAt (dsLen k : Nat) : Nat :=
  if k < 16 then 0
  else if k ≤ 16 + dsLen then k
  else if k < 20 + dsLen then 16 + dsLen
  else 20 + dsLen

/-! ## Debounce queue (`Entry`, `UniqueStream` in `src/rpc.rs`) -/

structure Entry (K V W : Type) where
  key : K
  value : V
  version : W
deriving Repr, DecidableEq

/-- The insertion step of `UniqueStream::poll`'s drain loop:

    if let Some(entry) = self.queue.iter_mut().find(|entry| entry.key == item.key) {
        if entry.version < item.version { *entry = item; }
        continue;
    }
    self.queue.push_back(item);

The first entry with a matching key is replaced in place when the new
version is strictly greater (otherwise the item is dropped); with no match
the item is appended at the back. -/
def pushItem {K V W : Type} [DecidableEq K] [LinearOrder W]
    (queue : List (Entry K V W)) (item : Entry K V W) : List (Entry K V W) :=
  match queue with
  | [] => [item]
  | e :: rest =>
    if e.key = item.key then
      if e.version < item.version then item :: rest else e :: rest
    else e :: pushItem rest item

/-- `UniqueStream`'s state: the internal buffer and the exhausted flag. The
`mpsc::UnboundedReceiver` is modelled by the poll arguments: `pending` is
the list of items currently queued in the channel and `closed` says whether
every `UniqueSink` clone has been dropped (the receiver reports
`Ready(None)` once `pending` is drained and `closed` holds). -/
structure UniqueStream (K V W : Type) where
  queue : List (Entry K V W)
  exhausted : Bool
deriving Repr, DecidableEq

inductive PollResult (α : Type) where
  | ready (a : α)
  | notReady
deriving Repr, DecidableEq

/-- The `while !self.exhausted` drain loop of `UniqueStream::poll`. -/
def drainLoop {K V W : Type} [DecidableEq K] [LinearOrder W] :
    List (Entry K V W) → Bool → List (Entry K V W) → Bool →
    List (Entry K V W) × Bool
  | queue, true, _, _ => (queue, true)
  | queue, false, i :: rest, closed => drainLoop (pushItem queue i) false rest closed
  | queue, false, [], closed => (queue, closed)

/-- `UniqueStream::poll`: drain the channel, then pop the front of the
internal buffer; on an empty buffer report end-of-stream when exhausted and
not-ready otherwise. (The receiver's error type is uninhabited in practice;
`poll` never takes the `Err` branch.) -/
def UniqueStream.poll {K V W : Type} [DecidableEq K] [LinearOrder W]
    (s : UniqueStream K V W) (pending : List (Entry K V W)) (closed : Bool) :
    PollResult (Option (Entry K V W)) × UniqueStream K V W :=
  match drainLoop s.queue s.exhausted pending closed with
  | (i :: rest, ex) => (.ready (some i), ⟨rest, ex⟩)
  | ([], ex) => if ex then (.ready none, ⟨[], ex⟩) else (.notReady, ⟨[], ex⟩)

/-- Repeatedly polling the consumer after all producers are gone
(`pending = []`, `closed = true`), collecting the delivered entries. -/
def pollDrain {K V W : Type} [DecidableEq K] [LinearOrder W] :
    UniqueStream K V W → Nat → List (Entry K V W)
  | _, 0 => []
  | s, fuel + 1 =>
    match s.poll [] true with
    | (.ready (some e), s2) => e :: pollDrain s2 fuel
    | (.ready none, _) => []
    | (.notReady, _) => []

/-- First index of `k` in a key list (the position `find` would report). -/
def firstIdx {K : Type} [DecidableEq K] (k : K) : List K → Nat
  | [] => 0
  | x :: xs => if x = k then 0 else firstIdx k xs + 1

/-! ## Blocking-read bridge (`AsyncRead` in `src/async_io.rs`)

The two handshake channels are modelled by explicit outcomes supplied to
`read`: `recv1` is the first `result_receiver.poll()`, `send` the
`size_sender.start_send(buf.len())`, and `recv2` the second
`result_receiver.poll()` (consulted only on the paths that reach it). -/

inductive IOErrorKind where
  | wouldBlock
  | brokenPipe
  | other
deriving Repr, DecidableEq

structure IOError where
  kind : IOErrorKind
  msg : String
deriving Repr, DecidableEq

/-- `Error::new(ErrorKind::WouldBlock, "Waiting on input to be available")`. -/
def wouldBlockError : IOError := ⟨.wouldBlock, "Waiting on input to be available"⟩

/-- `ErrorKind::BrokenPipe.into()`. -/
def brokenPipeError : IOError := ⟨.brokenPipe, ""⟩

/-- `Error::new(ErrorKind::Other, "Read thread has stopped")`. -/
def threadStoppedError : IOError := ⟨.other, "Read thread has stopped"⟩

deriving instance DecidableEq for Except

/-- Outcome of one `result_receiver.poll()`. -/
inductive RecvPoll where
  | readySome (result : Except IOError (List UInt8))
  | readyNone
  | notReady
  | errRecv
deriving Repr, DecidableEq

/-- Outcome of `size_sender.start_send(..)`. -/
inductive SendOutcome where
  | ready
  | sinkNotReady
  | errSend
deriving Repr, DecidableEq

structure ChanEnv where
  recv1 : RecvPoll
  send : SendOutcome
  recv2 : RecvPoll
deriving Repr, DecidableEq

structure AsyncRead where
  debt : List UInt8
deriving Repr, DecidableEq

/-- `AsyncRead::handle_input`: propagate a worker error verbatim; otherwise
copy `min(result length, caller buffer length)` bytes into the caller's
buffer and append the excess to the debt buffer. The returned byte list is
the prefix written into the caller's buffer (its length is the returned
count). -/
def AsyncRead.handle_input (s : AsyncRead) (bufLen : Nat)
    (result : Except IOError (List UInt8)) :
    Except IOError (List UInt8) × AsyncRead :=
  match result with
  | .error e => (.error e, s)
  | .ok buffer =>
    let copyLen := min buffer.length bufLen
    (.ok (buffer.take copyLen), ⟨s.debt ++ buffer.drop copyLen⟩)

/-- `<AsyncRead as Read>::read`. -/
def AsyncRead.read (s : AsyncRead) (bufLen : Nat) (env : ChanEnv) :
    Except IOError (List UInt8) × AsyncRead :=
  if s.debt.isEmpty then
    match env.recv1 with
    | .readySome result => s.handle_input bufLen result
    | .readyNone => (.ok [], s)
    | .notReady =>
      match env.send with
      | .ready =>
        match env.recv2 with
        | .readySome result => s.handle_input bufLen result
        | .readyNone => (.ok [], s)
        | .notReady => (.error wouldBlockError, s)
        | .errRecv => (.error brokenPipeError, s)
      | .sinkNotReady => (.error wouldBlockError, s)
      | .errSend =>
        match env.recv2 with
        | .readySome result => s.handle_input bufLen result
        | .readyNone => (.ok [], s)
        | .notReady => (.error wouldBlockError, s)
        | .errRecv => (.error threadStoppedError, s)
    | .errRecv => (.error brokenPipeError, s)
  else
    let copyLen := min s.debt.length bufLen
    (.ok (s.debt.take copyLen), ⟨s.debt.drop copyLen⟩)

/-- Successive `read` calls with the given caller-buffer sizes,
concatenating the returned bytes; stops threading on the first error. -/
def AsyncRead.readMany (s : AsyncRead) (sizes : List Nat) (env : ChanEnv) :
    List UInt8 × AsyncRead :=
  match sizes with
  | [] => ([], s)
  | n :: rest =>
    match s.read n env with
    | (.ok bs, s2) =>
      let out := s2.readMany rest env
      (bs ++ out.1, out.2)
    | (.error _, s2) => ([], s2)

/-! ## Lemmas about the framing grammar -/

theorem matchRange_append (pat r : List UInt8) :
    matchRange pat (pat ++ r) = .matched r := by
  simp [matchRange, List.take_left, List.drop_left]

theorem matchRange_needMore {pat inp : List UInt8} (h : inp.length < pat.length) :
    matchRange pat inp = .needMore := by
  simp [matchRange, h]

theorem matchRange_mismatch {pat inp : List UInt8} (h : pat.length ≤ inp.length)
    (hne : inp.take pat.length ≠ pat) : matchRange pat inp = .mismatch := by
  simp [matchRange, Nat.not_lt.mpr h, hne]

theorem contentLengthBytes_eq :
    contentLengthBytes =
      67 :: 111 :: [110, 116, 101, 110, 116, 45, 76, 101, 110, 103, 116, 104, 58, 32] := by
  decide

theorem parseFrame_CL (X : List UInt8) :
    parseFrame (contentLengthBytes ++ X) = parseDigits X 16 := by
  have h : contentLengthBytes ++ X
      = 67 :: 111 :: ([110, 116, 101, 110, 116, 45, 76, 101, 110, 103, 116, 104, 58, 32] ++ X) := by
    rw [contentLengthBytes_eq]; rfl
  rw [parseFrame, h]
  simp only [parseSeps]
  rw [if_neg (by decide), ← h]
  simp only [parseHeader, matchRange_append]

theorem parseDigitsLoop_digits {ds : List UInt8} (hdig : ∀ b ∈ ds, isDigit b = true) :
    ∀ t pos acc, parseDigitsLoop (ds ++ t) pos acc =
      parseDigitsLoop t (pos + ds.length) (ds.foldl (fun a b => a * 10 + digitVal b) acc) := by
  induction ds with
  | nil => intro t pos acc; simp
  | cons d ds ih =>
    intro t pos acc
    have hd : isDigit d = true := hdig d (List.mem_cons_self d ds)
    have hrest : ∀ b ∈ ds, isDigit b = true := fun b hb => hdig b (List.mem_cons_of_mem d hb)
    have hshape : (d :: ds) ++ t = d :: (ds ++ t) := rfl
    rw [hshape]
    simp only [parseDigitsLoop]
    rw [if_pos hd, ih hrest]
    have harith : pos + 1 + ds.length = pos + (d :: ds).length := by
      simp [List.length_cons]; omega
    rw [harith, List.foldl_cons]

theorem decValue_cons (d : UInt8) (ds : List UInt8) :
    decValue (d :: ds) = ds.foldl (fun a b => a * 10 + digitVal b) (digitVal d) := by
  simp [decValue]

theorem parseDigits_digits {ds : List UInt8} (hne : ds ≠ [])
    (hdig : ∀ b ∈ ds, isDigit b = true) (t : List UInt8) (pos : Nat) :
    parseDigits (ds ++ t) pos = parseDigitsLoop t (pos + ds.length) (decValue ds) := by
  match ds, hne with
  | d :: ds, _ =>
    have hd : isDigit d = true := hdig d (List.mem_cons_self d ds)
    have hrest : ∀ b ∈ ds, isDigit b = true := fun b hb => hdig b (List.mem_cons_of_mem d hb)
    have hshape : (d :: ds) ++ t = d :: (ds ++ t) := rfl
    rw [hshape]
    simp only [parseDigits]
    rw [if_pos hd, parseDigitsLoop_digits hrest, decValue_cons]
    have harith : pos + 1 + ds.length = pos + (d :: ds).length := by
      simp [List.length_cons]; omega
    rw [harith]

theorem parseDigits_onlyDigits {l : List UInt8} (hdig : ∀ b ∈ l, isDigit b = true)
    (pos : Nat) : parseDigits l pos = .moreInput (pos + l.length) := by
  match l with
  | [] => simp [parseDigits]
  | d :: ds =>
    have h := @parseDigits_digits (d :: ds) (by simp) hdig [] pos
    rw [List.append_nil] at h
    rw [h]
    simp [parseDigitsLoop]

theorem parseDigitsLoop_nonDigit {b : UInt8} (hb : isDigit b = false) {acc : Nat}
    (hacc : acc < usizeBound) (t : List UInt8) (pos : Nat) :
    parseDigitsLoop (b :: t) pos acc = parseTerm (b :: t) pos acc := by
  simp [parseDigitsLoop, hb, hacc]

/-- A complete frame, possibly followed by more bytes, parses to its body
with consumed count `header bytes + content length`. -/
theorem parseFrame_full {ds body : List UInt8} (hne : ds ≠ [])
    (hdig : ∀ b ∈ ds, isDigit b = true) (hval : decValue ds < usizeBound)
    (hbody : body.length = decValue ds) (rest : List UInt8) :
    parseFrame (frameBytes ds body ++ rest) =
      .done body (16 + ds.length + 4 + decValue ds) := by
  have hassoc : frameBytes ds body ++ rest =
      contentLengthBytes ++ (ds ++ (crlf2Bytes ++ (body ++ rest))) := by
    simp [frameBytes]
  rw [hassoc, parseFrame_CL, parseDigits_digits hne hdig]
  have h13 : crlf2Bytes ++ (body ++ rest) = 13 :: (10 :: 13 :: 10 :: (body ++ rest)) := by
    rw [show crlf2Bytes = [13, 10, 13, 10] from by decide]; rfl
  rw [h13, parseDigitsLoop_nonDigit (by decide) hval, ← h13]
  simp only [parseTerm, matchRange_append, parseBody]
  rw [if_pos (by rw [List.length_append, hbody]; omega)]
  rw [← hbody, List.take_left]

theorem take_append_ge {α : Type} {xs : List α} (ys : List α) {k : Nat}
    (h : xs.length ≤ k) : (xs ++ ys).take k = xs ++ ys.take (k - xs.length) := by
  rw [List.take_append_eq_append_take, List.take_of_length_le h]

theorem take_append_le {α : Type} {xs : List α} (ys : List α) {k : Nat}
    (h : k ≤ xs.length) : (xs ++ ys).take k = xs.take k := by
  rw [List.take_append_eq_append_take, Nat.sub_eq_zero_of_le h, List.take_zero,
    List.append_nil]

theorem parseTerm_short {inp : List UInt8} (h : inp.length < 4) (pos len : Nat) :
    parseTerm inp pos len = .moreInput pos := by
  have : inp.length < crlf2Bytes.length := by
    rw [show crlf2Bytes.length = 4 from by decide]; exact h
  simp [parseTerm, matchRange_needMore this]

/-- Any proper byte prefix of a frame leaves the grammar waiting for more
input — no message, no error — with exactly `committedAt` bytes committed. -/
theorem parseFrame_take_committed {ds body : List UInt8} (hne : ds ≠ [])
    (hdig : ∀ b ∈ ds, isDigit b = true) (hval : decValue ds < usizeBound)
    (hbody : body.length = decValue ds) {k : Nat}
    (hk : k < (frameBytes ds body).length) :
    parseFrame ((frameBytes ds body).take k)
      = .moreInput (committedAt ds.length k) := by
  have hCL : contentLengthBytes.length = 16 := by decide
  have hc4 : crlf2Bytes.length = 4 := by decide
  have hF : frameBytes ds body = contentLengthBytes ++ (ds ++ (crlf2Bytes ++ body)) := by
    simp [frameBytes]
  have hL : (frameBytes ds body).length = 20 + ds.length + body.length := by
    rw [hF]; simp [List.length_append, hCL, hc4]; omega
  rcases Nat.lt_or_ge k 16 with hA | h16
  · -- inside the "Content-Length: " literal: nothing committed
    have hc : committedAt ds.length k = 0 := by
      unfold committedAt; rw [if_pos hA]
    have ht : (frameBytes ds body).take k = contentLengthBytes.take k := by
      rw [hF, take_append_le _ (by omega)]
    rw [hc]
    interval_cases k <;> (rw [ht]; decide)
  rcases Nat.lt_or_ge k (17 + ds.length) with hB | hC16
  · -- inside (or right after) the length digits: committed byte by byte
    have hc : committedAt ds.length k = k := by
      unfold committedAt; rw [if_neg (by omega), if_pos (by omega)]
    have ht : (frameBytes ds body).take k = contentLengthBytes ++ ds.take (k - 16) := by
      rw [hF, take_append_ge _ (by omega), hCL, take_append_le _ (by omega)]
    rw [hc, ht, parseFrame_CL,
      parseDigits_onlyDigits (fun b hb => hdig b (List.take_subset _ _ hb))]
    congr 1
    rw [List.length_take, Nat.min_eq_left (by omega)]
    omega
  rcases Nat.lt_or_ge k (20 + ds.length) with hC | hD
  · -- inside the "\r\n\r\n" terminator: committed up to the digits
    have hc : committedAt ds.length k = 16 + ds.length := by
      unfold committedAt; rw [if_neg (by omega), if_neg (by omega), if_pos (by omega)]
    have ht : (frameBytes ds body).take k
        = contentLengthBytes ++ (ds ++ crlf2Bytes.take (k - 16 - ds.length)) := by
      rw [hF, take_append_ge _ (by omega), hCL, take_append_ge _ (by omega),
        take_append_le _ (by omega)]
    have hj1 : 1 ≤ k - 16 - ds.length := by omega
    have hj3 : k - 16 - ds.length < 4 := by omega
    obtain ⟨t, htj, hlen⟩ : ∃ t, crlf2Bytes.take (k - 16 - ds.length) = 13 :: t
        ∧ (13 :: t).length < 4 := by
      refine ⟨[10, 13, 10].take (k - 16 - ds.length - 1), ?_, ?_⟩
      · rw [show crlf2Bytes = 13 :: [10, 13, 10] from by decide,
          show k - 16 - ds.length = (k - 16 - ds.length - 1) + 1 from by omega,
          List.take_succ_cons]
        simp
      · simp only [List.length_cons, List.length_take]
        omega
    rw [hc, ht, parseFrame_CL, parseDigits_digits hne hdig, htj,
      parseDigitsLoop_nonDigit (by decide) hval, parseTerm_short hlen]
  · -- inside the body: `take(len)` is atomic, committed up to the header end
    have hc : committedAt ds.length k = 20 + ds.length := by
      unfold committedAt; rw [if_neg (by omega), if_neg (by omega), if_neg (by omega)]
    have ht : (frameBytes ds body).take k
        = contentLengthBytes ++ (ds ++ (crlf2Bytes ++ body.take (k - 20 - ds.length))) := by
      rw [hF, take_append_ge _ (by omega), hCL, take_append_ge _ (by omega),
        take_append_ge _ (by omega), hc4]
      have : k - 16 - ds.length - 4 = k - 20 - ds.length := by omega
      rw [this]
    have hjb : k - 20 - ds.length < body.length := by omega
    have h13 : crlf2Bytes ++ body.take (k - 20 - ds.length)
        = 13 :: (10 :: 13 :: 10 :: body.take (k - 20 - ds.length)) := by
      rw [show crlf2Bytes = [13, 10, 13, 10] from by decide]; rfl
    rw [hc, ht, parseFrame_CL, parseDigits_digits hne hdig, h13,
      parseDigitsLoop_nonDigit (by decide) hval, ← h13]
    simp only [parseTerm, matchRange_append, parseBody]
    rw [if_neg (by rw [List.length_take]; omega)]
    congr 1
    omega

theorem committedAt_le (dsLen : Nat) : ∀ k, committedAt dsLen k ≤ k := by
  intro k
  unfold committedAt
  split_ifs <;> omega

theorem committedAt_mono (dsLen : Nat) {k k2 : Nat} (h : k ≤ k2) :
    committedAt dsLen k ≤ committedAt dsLen k2 := by
  unfold committedAt
  split_ifs <;> omega

/-! ## Decimal formatting of the content length -/

theorem digitVal_encodeDigit {d : Nat} (hd : d < 10) :
    digitVal (UInt8.ofNat (48 + d)) = d := by
  interval_cases d <;> decide

theorem isDigit_encodeDigit {d : Nat} (hd : d < 10) :
    isDigit (UInt8.ofNat (48 + d)) = true := by
  interval_cases d <;> decide

theorem decValue_concat (xs : List UInt8) (y : UInt8) :
    decValue (xs ++ [y]) = decValue xs * 10 + digitVal y := by
  simp [decValue, List.foldl_concat]

theorem natDecDigitsAux_spec :
    ∀ fuel n, n < fuel →
      (∀ b ∈ natDecDigitsAux fuel n, isDigit b = true) ∧
      natDecDigitsAux fuel n ≠ [] ∧ decValue (natDecDigitsAux fuel n) = n := by
  intro fuel
  induction fuel with
  | zero => intro n h; omega
  | succ fuel ih =>
    intro n _
    by_cases h10 : n < 10
    · refine ⟨?_, ?_, ?_⟩
      · intro b hb
        simp only [natDecDigitsAux, if_pos h10, List.mem_singleton] at hb
        rw [hb]; exact isDigit_encodeDigit h10
      · simp [natDecDigitsAux, if_pos h10]
      · simp only [natDecDigitsAux, if_pos h10]
        rw [show [UInt8.ofNat (48 + n)] = [] ++ [UInt8.ofNat (48 + n)] from rfl,
          decValue_concat, digitVal_encodeDigit h10]
        simp [decValue]
    · have hdiv : n / 10 < fuel := by
        have h1 : n / 10 < n := Nat.div_lt_self (by omega) (by omega)
        omega
      obtain ⟨ha, hb, hc⟩ := ih (n / 10) hdiv
      refine ⟨?_, ?_, ?_⟩
      · intro b hbm
        simp only [natDecDigitsAux, if_neg h10, List.mem_append, List.mem_singleton] at hbm
        rcases hbm with hbm | hbm
        · exact ha b hbm
        · rw [hbm]; exact isDigit_encodeDigit (Nat.mod_lt n (by omega))
      · simp [natDecDigitsAux, if_neg h10]
      · simp only [natDecDigitsAux, if_neg h10]
        rw [decValue_concat, hc, digitVal_encodeDigit (Nat.mod_lt n (by omega))]
        omega

theorem natDecDigits_digits (n : Nat) : ∀ b ∈ natDecDigits n, isDigit b = true :=
  (natDecDigitsAux_spec (n + 1) n (by omega)).1

theorem natDecDigits_ne_nil (n : Nat) : natDecDigits n ≠ [] :=
  (natDecDigitsAux_spec (n + 1) n (by omega)).2.1

theorem decValue_natDecDigits (n : Nat) : decValue (natDecDigits n) = n :=
  (natDecDigitsAux_spec (n + 1) n (by omega)).2.2

theorem frameBytes_length (ds body : List UInt8) :
    (frameBytes ds body).length = 20 + ds.length + body.length := by
  simp only [frameBytes, List.length_append,
    show contentLengthBytes.length = 16 from by decide,
    show crlf2Bytes.length = 4 from by decide]
  omega

theorem encode_nil_eq (m : List UInt8) :
    LanguageServerEncoder.encode m [] = frameBytes (natDecDigits m.length) m := by
  simp [LanguageServerEncoder.encode, write_message_str, frameBytes]

/-! ## UTF-8 facts used by the decode analysis -/

theorem utf8Valid_ascii {l : List UInt8} (h : ∀ b ∈ l, b ≤ 127) :
    utf8Valid l = true := by
  induction l with
  | nil => rfl
  | cons b rest ih =>
    have hb : b ≤ 127 := h b (List.mem_cons_self b rest)
    show utf8ValidAux (rest.length + 1) (b :: rest) = true
    simp only [utf8ValidAux]
    rw [if_pos hb]
    exact ih fun x hx => h x (List.mem_cons_of_mem b hx)

theorem utf8Valid_ascii_append {xs : List UInt8} (ys : List UInt8)
    (h : ∀ b ∈ xs, b ≤ 127) :
    utf8Valid (xs ++ ys) = utf8Valid ys := by
  induction xs with
  | nil => rfl
  | cons b rest ih =>
    have hb : b ≤ 127 := h b (List.mem_cons_self b rest)
    show utf8ValidAux ((rest ++ ys).length + 1) (b :: (rest ++ ys)) = utf8Valid ys
    simp only [utf8ValidAux]
    rw [if_pos hb]
    exact ih fun x hx => h x (List.mem_cons_of_mem b hx)

/-- Digit bytes are ASCII. -/
theorem isDigit_ascii {b : UInt8} (h : isDigit b = true) : b ≤ 127 := by
  simp only [isDigit, Bool.and_eq_true, decide_eq_true_eq] at h
  have h2 := h.2
  rw [UInt8.le_def, BitVec.le_def] at h2 ⊢
  rw [show (UInt8.toBitVec 57).toNat = 57 from by decide] at h2
  rw [show (UInt8.toBitVec 127).toNat = 127 from by decide]
  omega

/-- The header region of a frame is pure ASCII. -/
theorem headerBytes_ascii {ds : List UInt8} (hdig : ∀ b ∈ ds, isDigit b = true) :
    ∀ b ∈ (contentLengthBytes ++ ds) ++ crlf2Bytes, b ≤ 127 := by
  intro b hb
  rcases List.mem_append.mp hb with hb | hb
  · rcases List.mem_append.mp hb with hb | hb
    · exact (show ∀ x ∈ contentLengthBytes, x ≤ 127 from by decide) b hb
    · exact isDigit_ascii (hdig b hb)
  · exact (show ∀ x ∈ crlf2Bytes, x ≤ 127 from by decide) b hb

/-- A frame whose body is ASCII is ASCII throughout. -/
theorem frameBytes_ascii {ds body : List UInt8}
    (hdig : ∀ b ∈ ds, isDigit b = true) (hbody : ∀ b ∈ body, b ≤ 127) :
    ∀ b ∈ frameBytes ds body, b ≤ 127 := by
  intro b hb
  simp only [frameBytes] at hb
  rcases List.mem_append.mp hb with hb | hb
  · exact headerBytes_ascii hdig b hb
  · exact hbody b hb

/-! ## Lemmas about `LanguageServerDecoder.decode` -/

/-- A fresh decoder fed one complete frame followed by a valid-UTF-8
surplus returns the body without panicking and leaves the surplus in the
buffer: the `str::from_utf8` unwraps succeed because the consumed slice is
the ASCII header plus a valid body. -/
theorem decode_full_ok {ds body : List UInt8} (hne : ds ≠ [])
    (hdig : ∀ b ∈ ds, isDigit b = true) (hval : decValue ds < usizeBound)
    (hbody : body.length = decValue ds) (hutf : utf8Valid body = true)
    {rest : List UInt8} (hrest : utf8Valid rest = true) :
    LanguageServerDecoder.new.decode (frameBytes ds body ++ rest)
      = .ok ⟨some body, ⟨[]⟩, rest⟩ := by
  have hcons : 16 + ds.length + 4 + decValue ds = (frameBytes ds body).length := by
    rw [frameBytes_length, ← hbody]; omega
  have hvalid : utf8Valid (frameBytes ds body) = true := by
    have heq : utf8Valid (((contentLengthBytes ++ ds) ++ crlf2Bytes) ++ body)
        = utf8Valid body := utf8Valid_ascii_append body (headerBytes_ascii hdig)
    show utf8Valid (((contentLengthBytes ++ ds) ++ crlf2Bytes) ++ body) = true
    rw [heq, hutf]
  simp only [LanguageServerDecoder.decode, LanguageServerDecoder.new, List.nil_append,
    List.length_nil, Nat.sub_zero]
  rw [parseFrame_full hne hdig hval hbody rest]
  simp [hcons, List.take_left, List.drop_left, hvalid, hutf, hrest]

theorem decode_nil : LanguageServerDecoder.decode ⟨[]⟩ [] = .ok ⟨none, ⟨[]⟩, []⟩ := by
  decide

theorem feedChunks_empty (acc : List (List UInt8)) :
    ∀ chunks : List (List UInt8), (∀ c ∈ chunks, c = []) →
      feedChunks ⟨[]⟩ [] chunks acc = .ok acc := by
  intro chunks
  induction chunks with
  | nil => intro _; rfl
  | cons c cs ih =>
    intro hc
    have hcnil : c = [] := hc c (List.mem_cons_self c cs)
    simp only [feedChunks, hcnil, List.append_nil, decode_nil, Option.toList_none]
    exact ih fun d hd => hc d (List.mem_cons_of_mem c hd)

/-- Chunked decoding of a frame with an ASCII body delivers exactly the
body: every buffer slice the debug `eprintln!` unwraps see is ASCII, so no
panic occurs, whatever the chunking. -/
theorem feedChunks_frame_ascii {ds body : List UInt8} (hne : ds ≠ [])
    (hdig : ∀ b ∈ ds, isDigit b = true) (hval : decValue ds < usizeBound)
    (hbody : body.length = decValue ds) (hascii : ∀ b ∈ body, b ≤ 127) :
    ∀ (chunks : List (List UInt8)) (buf : List UInt8) (k : Nat),
      k < (frameBytes ds body).length →
      (frameBytes ds body).take (committedAt ds.length k) ++ buf
        = (frameBytes ds body).take k →
      chunks.flatten = (frameBytes ds body).drop k →
      feedChunks ⟨(frameBytes ds body).take (committedAt ds.length k)⟩ buf chunks []
        = .ok [body] := by
  intro chunks
  induction chunks with
  | nil =>
    intro buf k hk hsb hj
    exfalso
    have : (frameBytes ds body).drop k = [] := by simpa using hj.symm
    rw [List.drop_eq_nil_iff] at this
    omega
  | cons c cs ih =>
    intro buf k hk hsb hj
    have hflat : c ++ cs.flatten = (frameBytes ds body).drop k := by
      simpa using hj
    have hcsub : c = ((frameBytes ds body).drop k).take c.length := by
      rw [← hflat, List.take_left]
    have hcs : cs.flatten = (frameBytes ds body).drop (k + c.length) := by
      rw [← List.drop_drop, ← hflat, List.drop_left]
    have hinput : (frameBytes ds body).take (committedAt ds.length k) ++ (buf ++ c)
        = (frameBytes ds body).take (k + c.length) := by
      rw [← List.append_assoc, hsb, List.take_add, ← hcsub]
    have hk2 : k + c.length ≤ (frameBytes ds body).length := by
      have hlen := congrArg List.length hcsub
      simp only [List.length_take, List.length_drop] at hlen
      omega
    have hstlen : ((frameBytes ds body).take (committedAt ds.length k)).length
        = committedAt ds.length k := by
      rw [List.length_take]
      exact Nat.min_eq_left (le_trans (committedAt_le _ _) (le_of_lt hk))
    have hsrcascii : ∀ b ∈ buf ++ c, b ≤ 127 := by
      intro b hb
      exact frameBytes_ascii hdig hascii b
        (List.take_subset _ _ (hinput ▸ List.mem_append_right _ hb))
    have htake : ∀ r : Nat, utf8Valid ((buf ++ c).take r) = true :=
      fun r => utf8Valid_ascii fun b hb => hsrcascii b (List.take_subset _ _ hb)
    have hdrop : ∀ r : Nat, utf8Valid ((buf ++ c).drop r) = true :=
      fun r => utf8Valid_ascii fun b hb => hsrcascii b (List.drop_subset _ _ hb)
    rcases Nat.lt_or_ge (k + c.length) (frameBytes ds body).length with hlt | hge
    · have hc0 := parseFrame_take_committed hne hdig hval hbody hlt
      have hdec : LanguageServerDecoder.decode
          ⟨(frameBytes ds body).take (committedAt ds.length k)⟩ (buf ++ c)
          = .ok ⟨none,
              ⟨((frameBytes ds body).take (k + c.length)).take
                (committedAt ds.length (k + c.length))⟩,
              (buf ++ c).drop
                (committedAt ds.length (k + c.length) - committedAt ds.length k)⟩ := by
        simp only [LanguageServerDecoder.decode, hinput, hc0, hstlen]
        rw [if_pos (htake _), if_pos (hdrop _)]
      have hstate : ((frameBytes ds body).take (k + c.length)).take
            (committedAt ds.length (k + c.length))
          = (frameBytes ds body).take (committedAt ds.length (k + c.length)) := by
        rw [List.take_take, Nat.min_eq_left (committedAt_le _ _)]
      rw [hstate] at hdec
      have hmono : committedAt ds.length k ≤ committedAt ds.length (k + c.length) :=
        committedAt_mono _ (by omega)
      have hdropeq : ((frameBytes ds body).take (k + c.length)).drop
            (committedAt ds.length (k + c.length))
          = (buf ++ c).drop
              (committedAt ds.length (k + c.length) - committedAt ds.length k) := by
        rw [← hinput, List.drop_append_eq_append_drop, hstlen,
          List.drop_eq_nil_iff.mpr (by rw [hstlen]; exact hmono), List.nil_append]
      have hsb2 : (frameBytes ds body).take (committedAt ds.length (k + c.length))
            ++ (buf ++ c).drop
              (committedAt ds.length (k + c.length) - committedAt ds.length k)
          = (frameBytes ds body).take (k + c.length) := by
        rw [← hdropeq, ← hstate, List.take_append_drop]
      simp only [feedChunks, hdec, Option.toList_none, List.append_nil]
      exact ih _ (k + c.length) hlt hsb2 hcs
    · have heq : k + c.length = (frameBytes ds body).length := Nat.le_antisymm hk2 hge
      have hfull : (frameBytes ds body).take (committedAt ds.length k) ++ (buf ++ c)
          = frameBytes ds body := by
        rw [hinput, heq, List.take_length]
      have hpf : parseFrame (frameBytes ds body)
          = .done body (16 + ds.length + 4 + decValue ds) := by
        have := parseFrame_full hne hdig hval hbody []
        rwa [List.append_nil] at this
      have hcons : 16 + ds.length + 4 + decValue ds = (frameBytes ds body).length := by
        rw [frameBytes_length, ← hbody]; omega
      have hrem : (buf ++ c).drop
            ((frameBytes ds body).length - committedAt ds.length k) = [] := by
        have hlen3 : committedAt ds.length k + (buf ++ c).length
            = (frameBytes ds body).length := by
          rw [← hstlen]
          simpa [List.length_append] using congrArg List.length hfull
        rw [show (frameBytes ds body).length - committedAt ds.length k
            = (buf ++ c).length from by omega, List.drop_length]
      have hdec : LanguageServerDecoder.decode
          ⟨(frameBytes ds body).take (committedAt ds.length k)⟩ (buf ++ c)
          = .ok ⟨some body, ⟨[]⟩, []⟩ := by
        simp only [LanguageServerDecoder.decode, hfull, hpf, hstlen, hcons]
        rw [if_pos (htake _), if_pos (hdrop _), if_pos (utf8Valid_ascii hascii), hrem]
      simp only [feedChunks, hdec, Option.toList_some, List.nil_append]
      refine feedChunks_empty [body] cs ?_
      rw [← List.flatten_eq_nil_iff, hcs, heq, List.drop_length]

/-- An encoded payload of ASCII bytes round-trips through the decoder for
every chunking — byte-by-byte included — because no buffer slice can end
inside a multi-byte character. -/
theorem ascii_payload_roundtrip (m : List UInt8) (hascii : ∀ b ∈ m, b ≤ 127)
    (hlen : m.length < usizeBound) (chunks : List (List UInt8))
    (hchunks : chunks.flatten = LanguageServerEncoder.encode m []) :
    feedChunks LanguageServerDecoder.new [] chunks [] = .ok [m] := by
  have hval : decValue (natDecDigits m.length) < usizeBound := by
    rw [decValue_natDecDigits]; exact hlen
  have hbody : m.length = decValue (natDecDigits m.length) :=
    (decValue_natDecDigits m.length).symm
  have hk0 : 0 < (frameBytes (natDecDigits m.length) m).length := by
    rw [frameBytes_length]; omega
  have hc00 : committedAt (natDecDigits m.length).length 0 = 0 := by
    unfold committedAt
    rw [if_pos (by omega)]
  have h := feedChunks_frame_ascii (natDecDigits_ne_nil m.length)
    (natDecDigits_digits m.length) hval hbody hascii chunks [] 0 hk0
    (by rw [hc00]; simp) (by rw [hchunks, encode_nil_eq, List.drop_zero])
  exact h

/-- C1: the claimed round-trip fails on the program. Encoding the two-byte
payload 0xC3 0xA9 (the character "é") and feeding the frame to the decoder
one byte per call reaches a state whose buffer tail is the lone lead byte
0xC3; the debug statement `str::from_utf8(&src[removed_len..]).unwrap()`
at rpc.rs:305 then panics, so the message is never delivered. The spec's
round-trip property (byte-by-byte splits included) is the intent; the
unwrap in leftover debug output is the defect. -/
theorem c1_split_char_feed_panics :
    feedChunks LanguageServerDecoder.new []
      ((LanguageServerEncoder.encode [195, 169] []).map (fun b => [b])) []
      = .panicked := by
  decide

/-- C4: the claimed clean prefix/full-match behavior fails on the program.
A 22-byte prefix of the frame for payload 0xC3 0xA9 cuts the body inside
the character, and a full frame for "ab" followed by the surplus byte 0xFF
leaves a non-UTF-8 tail: in both cases `decode` panics in the debug
`str::from_utf8(..).unwrap()` calls (rpc.rs:301-305) instead of returning
"no message yet" or the message with the surplus retained. -/
theorem c4_prefix_and_surplus_panics :
    LanguageServerDecoder.new.decode ((frameBytes [50] [195, 169]).take 22)
        = .panicked ∧
    LanguageServerDecoder.new.decode (frameBytes [50] [97, 98] ++ [255])
        = .panicked := by
  exact ⟨by decide, by decide⟩

/-- C5: the claimed error reporting fails on the program. For the frame
declaring length 1 with the invalid-UTF-8 body 0xFF, the parse succeeds and
the debug unwrap on the consumed slice (rpc.rs:301-304) panics before
`String::from_utf8(output)?` could return the invalid-UTF-8 error — that
error return is unreachable for the case it handles. For a malformed header
whose offending byte 0xFF is not UTF-8, the `map_err` unwrap (rpc.rs:297)
panics instead of building the error value. Only a malformed header that
happens to be valid UTF-8 (offending byte 0x78) yields the claimed error
value. -/
theorem c5_malformed_panics_not_error :
    LanguageServerDecoder.new.decode (frameBytes [49] [255]) = .panicked ∧
    LanguageServerDecoder.new.decode (contentLengthBytes ++ [255]) = .panicked ∧
    LanguageServerDecoder.new.decode (contentLengthBytes ++ [120])
      = .failed (.parseFailure 16 (contentLengthBytes ++ [120])) := by
  exact ⟨by decide, by decide, by decide⟩
/-- C9: encoding appends to the output exactly "Content-Length: ", the
payload's byte length in decimal (a nonempty digit string whose value is
that length), CRLF CRLF, and the payload — nothing else, and nothing
already written is touched. -/
theorem c9_encode_exact (item dst : List UInt8) :
    LanguageServerEncoder.encode item dst
      = dst ++ (strBytes "Content-Length: " ++ natDecDigits item.length
          ++ strBytes "\r\n\r\n" ++ item) ∧
    (∀ b ∈ natDecDigits item.length, isDigit b = true) ∧
    natDecDigits item.length ≠ [] ∧
    decValue (natDecDigits item.length) = item.length := by
  refine ⟨?_, natDecDigits_digits _, natDecDigits_ne_nil _, decValue_natDecDigits _⟩
  simp [LanguageServerEncoder.encode, write_message_str, contentLengthBytes, crlf2Bytes]

/-- C9 witness: the payload "ab" appended after one already-written byte. -/
theorem c9_witness :
    LanguageServerEncoder.encode [97, 98] [1]
      = [1] ++ (strBytes "Content-Length: " ++ natDecDigits 2
          ++ strBytes "\r\n\r\n" ++ [97, 98]) ∧
    decValue (natDecDigits 2) = 2 :=
  ⟨(c9_encode_exact [97, 98] [1]).1, (c9_encode_exact [97, 98] [1]).2.2.2⟩

/-! ## Lemmas about the debounce queue -/

section Debounce

variable {K V W : Type} [DecidableEq K] [LinearOrder W]

theorem keys_pushItem (q : List (Entry K V W)) (i : Entry K V W) :
    (pushItem q i).map (·.key)
      = if i.key ∈ q.map (·.key) then q.map (·.key)
        else q.map (·.key) ++ [i.key] := by
  induction q with
  | nil => simp [pushItem]
  | cons e rest ih =>
    simp only [List.map_cons]
    by_cases hk : e.key = i.key
    · have hmem : i.key ∈ e.key :: rest.map (·.key) := by
        rw [← hk]; exact List.mem_cons_self _ _
      rw [if_pos hmem]
      by_cases hv : e.version < i.version
      · have hpush : pushItem (e :: rest) i = i :: rest := by simp [pushItem, hk, hv]
        rw [hpush, List.map_cons, hk]
      · have hpush : pushItem (e :: rest) i = e :: rest := by simp [pushItem, hk, hv]
        rw [hpush, List.map_cons]
    · have hpush : pushItem (e :: rest) i = e :: pushItem rest i := by
        simp [pushItem, hk]
      rw [hpush, List.map_cons, ih]
      by_cases hm : i.key ∈ rest.map (·.key)
      · rw [if_pos hm, if_pos (List.mem_cons_of_mem _ hm)]
      · have hni : i.key ∉ e.key :: rest.map (·.key) := by
          intro hcontra
          rcases List.mem_cons.mp hcontra with h | h
          · exact hk h.symm
          · exact hm h
        rw [if_neg hm, if_neg hni, List.cons_append]

theorem mem_pushItem {q : List (Entry K V W)} {i e : Entry K V W}
    (h : e ∈ pushItem q i) : e ∈ q ∨ e = i := by
  induction q with
  | nil =>
    simp only [pushItem, List.mem_singleton] at h
    exact Or.inr h
  | cons a rest ih =>
    by_cases hk : a.key = i.key
    · by_cases hv : a.version < i.version
      · simp only [pushItem, if_pos hk, if_pos hv, List.mem_cons] at h
        rcases h with h | h
        · exact Or.inr h
        · exact Or.inl (List.mem_cons_of_mem a h)
      · simp only [pushItem, if_pos hk, if_neg hv] at h
        exact Or.inl h
    · simp only [pushItem, if_neg hk, List.mem_cons] at h
      rcases h with h | h
      · exact Or.inl (h ▸ List.mem_cons_self a rest)
      · rcases ih h with h2 | h2
        · exact Or.inl (List.mem_cons_of_mem a h2)
        · exact Or.inr h2

theorem nodup_keys_pushItem {q : List (Entry K V W)}
    (h : (q.map (·.key)).Nodup) (i : Entry K V W) :
    ((pushItem q i).map (·.key)).Nodup := by
  rw [keys_pushItem]
  by_cases hm : i.key ∈ q.map (·.key)
  · rwa [if_pos hm]
  · rw [if_neg hm]
    simp [List.nodup_append, h, hm]

/-- After an insertion, some buffered entry carries the inserted key with at
least the inserted version, and every previously buffered entry is still
dominated by an entry with its key. -/
theorem pushItem_covers (q : List (Entry K V W)) (i : Entry K V W) :
    (∃ b ∈ pushItem q i, b.key = i.key ∧ i.version ≤ b.version) ∧
    (∀ a ∈ q, ∃ b ∈ pushItem q i, b.key = a.key ∧ a.version ≤ b.version) := by
  induction q with
  | nil =>
    refine ⟨⟨i, ?_, rfl, le_refl _⟩, by simp⟩
    simp [pushItem]
  | cons a rest ih =>
    by_cases hk : a.key = i.key
    · by_cases hv : a.version < i.version
      · have hpush : pushItem (a :: rest) i = i :: rest := by
          simp [pushItem, hk, hv]
        rw [hpush]
        refine ⟨⟨i, List.mem_cons_self i rest, rfl, le_refl _⟩, ?_⟩
        intro x hx
        rcases List.mem_cons.mp hx with hx | hx
        · exact ⟨i, List.mem_cons_self i rest, by rw [hx, hk], by rw [hx]; exact le_of_lt hv⟩
        · exact ⟨x, List.mem_cons_of_mem i hx, rfl, le_refl _⟩
      · have hpush : pushItem (a :: rest) i = a :: rest := by
          simp [pushItem, hk, hv]
        rw [hpush]
        refine ⟨⟨a, List.mem_cons_self a rest, hk, not_lt.mp hv⟩, ?_⟩
        intro x hx
        exact ⟨x, hx, rfl, le_refl _⟩
    · have hpush : pushItem (a :: rest) i = a :: pushItem rest i := by
        simp [pushItem, hk]
      rw [hpush]
      obtain ⟨⟨b, hb, hbk, hbv⟩, hall⟩ := ih
      refine ⟨⟨b, List.mem_cons_of_mem a hb, hbk, hbv⟩, ?_⟩
      intro x hx
      rcases List.mem_cons.mp hx with hx | hx
      · exact ⟨a, List.mem_cons_self a _, hx ▸ rfl, hx ▸ le_refl _⟩
      · obtain ⟨b2, hb2, hb2k, hb2v⟩ := hall x hx
        exact ⟨b2, List.mem_cons_of_mem a hb2, hb2k, hb2v⟩

/-- Main fold invariant: folding the insertion step keeps keys unique,
keeps every buffered version maximal among the versions seen for its key,
and every buffered entry's version originates from the start buffer or from
one of the inserted items. -/
theorem foldl_pushItem_inv :
    ∀ (items : List (Entry K V W)) (q : List (Entry K V W)),
      (q.map (·.key)).Nodup →
      ((List.foldl pushItem q items).map (·.key)).Nodup ∧
      ∀ e ∈ List.foldl pushItem q items,
        (∀ i ∈ items, i.key = e.key → i.version ≤ e.version) ∧
        (∀ a ∈ q, a.key = e.key → a.version ≤ e.version) ∧
        (e ∈ q ∨ ∃ i ∈ items, i.key = e.key ∧ i.version = e.version) := by
  intro items
  induction items with
  | nil =>
    intro q hq
    refine ⟨hq, ?_⟩
    intro e he
    refine ⟨by simp, ?_, Or.inl he⟩
    intro a ha hk
    have : a = e := List.inj_on_of_nodup_map hq ha he hk
    rw [this]
  | cons i rest ih =>
    intro q hq
    have hq2 : ((pushItem q i).map (·.key)).Nodup := nodup_keys_pushItem hq i
    obtain ⟨hnd, hmain⟩ := ih (pushItem q i) hq2
    rw [List.foldl_cons]
    refine ⟨hnd, ?_⟩
    intro e he
    obtain ⟨hrest, hq', horig⟩ := hmain e he
    refine ⟨?_, ?_, ?_⟩
    · intro x hx hxk
      rcases List.mem_cons.mp hx with hx | hx
      · subst hx
        obtain ⟨⟨b, hb, hbk, hbv⟩, _⟩ := pushItem_covers q x
        exact le_trans hbv (hq' b hb (by rw [hbk, hxk]))
      · exact hrest x hx hxk
    · intro a ha hak
      obtain ⟨_, hall⟩ := pushItem_covers q i
      obtain ⟨b, hb, hbk, hbv⟩ := hall a ha
      exact le_trans hbv (hq' b hb (by rw [hbk, hak]))
    · rcases horig with horig | horig
      · rcases mem_pushItem horig with h2 | h2
        · exact Or.inl h2
        · exact Or.inr ⟨i, List.mem_cons_self i rest, by rw [h2], by rw [h2]⟩
      · obtain ⟨x, hx, hxk, hxv⟩ := horig
        exact Or.inr ⟨x, List.mem_cons_of_mem i hx, hxk, hxv⟩

theorem mem_keys_pushItem (q : List (Entry K V W)) (i : Entry K V W) (x : K) :
    x ∈ (pushItem q i).map (·.key) ↔ x ∈ q.map (·.key) ∨ x = i.key := by
  rw [keys_pushItem]
  by_cases hm : i.key ∈ q.map (·.key)
  · rw [if_pos hm]
    exact ⟨Or.inl, fun h => h.elim id (fun hx => hx ▸ hm)⟩
  · rw [if_neg hm]
    simp

theorem mem_keys_foldl (items : List (Entry K V W)) :
    ∀ (q : List (Entry K V W)) (x : K),
      x ∈ (List.foldl pushItem q items).map (·.key) ↔
        x ∈ q.map (·.key) ∨ x ∈ items.map (·.key) := by
  induction items with
  | nil => intro q x; simp
  | cons i rest ih =>
    intro q x
    rw [List.foldl_cons, ih (pushItem q i) x, mem_keys_pushItem]
    simp only [List.map_cons, List.mem_cons]
    tauto

theorem firstIdx_append_of_mem {k : K} {l : List K} (h : k ∈ l) (t : List K) :
    firstIdx k (l ++ t) = firstIdx k l := by
  induction l with
  | nil => cases h
  | cons x xs ih =>
    by_cases hx : x = k
    · simp [firstIdx, hx]
    · have hks : k ∈ xs := by
        rcases List.mem_cons.mp h with h2 | h2
        · exact absurd h2.symm hx
        · exact h2
      simp [firstIdx, hx, ih hks]

theorem firstIdx_append_self {k : K} {l : List K} (h : k ∉ l) :
    firstIdx k (l ++ [k]) = l.length := by
  induction l with
  | nil => simp [firstIdx]
  | cons x xs ih =>
    have hx : ¬x = k := fun hc => h (hc ▸ List.mem_cons_self x xs)
    have hxs : k ∉ xs := fun hc => h (List.mem_cons_of_mem x hc)
    simp [firstIdx, hx, ih hxs]

theorem firstIdx_lt_length {k : K} {l : List K} (h : k ∈ l) :
    firstIdx k l < l.length := by
  induction l with
  | nil => cases h
  | cons x xs ih =>
    by_cases hx : x = k
    · simp [firstIdx, hx]
    · have hks : k ∈ xs := by
        rcases List.mem_cons.mp h with h2 | h2
        · exact absurd h2.symm hx
        · exact h2
      simp only [firstIdx, if_neg hx, List.length_cons]
      exact Nat.succ_lt_succ (ih hks)

/-- First-seen order of two distinct keys in the sent items is preserved in
the internal buffer built by folding the insertion step. -/
theorem foldl_keys_order (items : List (Entry K V W)) {a b : K} (hab : a ≠ b)
    (ha : a ∈ items.map (·.key)) (hb : b ∈ items.map (·.key))
    (hord : firstIdx a (items.map (·.key)) < firstIdx b (items.map (·.key))) :
    a ∈ (List.foldl pushItem ([] : List (Entry K V W)) items).map (·.key) ∧
    b ∈ (List.foldl pushItem ([] : List (Entry K V W)) items).map (·.key) ∧
    firstIdx a ((List.foldl pushItem ([] : List (Entry K V W)) items).map (·.key)) <
      firstIdx b ((List.foldl pushItem ([] : List (Entry K V W)) items).map (·.key)) := by
  induction items using List.reverseRecOn with
  | nil => simp at ha
  | append_singleton rest x ih =>
    have hmemB : ∀ y : K,
        y ∈ (List.foldl pushItem ([] : List (Entry K V W)) rest).map (·.key) ↔
          y ∈ rest.map (·.key) := by
      intro y
      rw [mem_keys_foldl]
      simp
    have hfold : List.foldl pushItem ([] : List (Entry K V W)) (rest ++ [x])
        = pushItem (List.foldl pushItem [] rest) x := List.foldl_concat _ _ _ _
    have hks : (rest ++ [x]).map (·.key) = rest.map (·.key) ++ [x.key] := by
      simp
    rw [hks] at ha hb hord
    rw [hfold, keys_pushItem]
    by_cases haks : a ∈ rest.map (·.key)
    · by_cases hbks : b ∈ rest.map (·.key)
      · -- both keys already seen: inherited from the induction hypothesis
        rw [firstIdx_append_of_mem haks, firstIdx_append_of_mem hbks] at hord
        obtain ⟨haB, hbB, hidx⟩ := ih haks hbks hord
        by_cases hxk : x.key ∈ (List.foldl pushItem ([] : List (Entry K V W)) rest).map (·.key)
        · rw [if_pos hxk]
          exact ⟨haB, hbB, hidx⟩
        · rw [if_neg hxk]
          exact ⟨List.mem_append_left _ haB, List.mem_append_left _ hbB, by
            rw [firstIdx_append_of_mem haB, firstIdx_append_of_mem hbB]; exact hidx⟩
      · -- b first appears as the new key x.key
        have hbx : b = x.key := by
          rcases List.mem_append.mp hb with h2 | h2
          · exact absurd h2 hbks
          · simpa using h2
        have haB : a ∈ (List.foldl pushItem ([] : List (Entry K V W)) rest).map (·.key) :=
          (hmemB a).mpr haks
        have hbB : b ∉ (List.foldl pushItem ([] : List (Entry K V W)) rest).map (·.key) :=
          fun hc => hbks ((hmemB b).mp hc)
        have hxk : x.key ∉ (List.foldl pushItem ([] : List (Entry K V W)) rest).map (·.key) :=
          hbx ▸ hbB
        rw [if_neg hxk]
        refine ⟨List.mem_append_left _ haB, ?_, ?_⟩
        · rw [← hbx]
          exact List.mem_append_right _ (List.mem_singleton_self b)
        · rw [firstIdx_append_of_mem haB, ← hbx, firstIdx_append_self hbB]
          exact firstIdx_lt_length haB
    · -- a would have to be the newly appended key, contradicting the order
      exfalso
      have hax : a = x.key := by
        rcases List.mem_append.mp ha with h2 | h2
        · exact absurd h2 haks
        · simpa using h2
      have hbks : b ∈ rest.map (·.key) := by
        rcases List.mem_append.mp hb with h2 | h2
        · exact h2
        · exfalso
          have hbx : b = x.key := by simpa using h2
          exact hab (hax.trans hbx.symm)
      rw [← hax, firstIdx_append_self haks, firstIdx_append_of_mem hbks] at hord
      exact absurd (firstIdx_lt_length hbks) (by omega)

theorem drainLoop_closed (q : List (Entry K V W)) (ex : Bool) :
    drainLoop q ex [] true = (q, true) := by
  cases ex <;> rfl

theorem poll_closed_cons (e : Entry K V W) (rest : List (Entry K V W)) (ex : Bool) :
    UniqueStream.poll ⟨e :: rest, ex⟩ [] true = (.ready (some e), ⟨rest, true⟩) := by
  simp [UniqueStream.poll, drainLoop_closed]

theorem poll_closed_nil (ex : Bool) :
    UniqueStream.poll (⟨[], ex⟩ : UniqueStream K V W) [] true
      = (.ready none, ⟨[], true⟩) := by
  simp [UniqueStream.poll, drainLoop_closed]

/-- With all producers gone, repeated polling delivers the buffered entries
front to back. -/
theorem pollDrain_queue (q : List (Entry K V W)) :
    ∀ (ex : Bool) (fuel : Nat), q.length < fuel → pollDrain ⟨q, ex⟩ fuel = q := by
  induction q with
  | nil =>
    intro ex fuel h
    match fuel, h with
    | fuel + 1, _ => simp [pollDrain, poll_closed_nil]
  | cons e rest ih =>
    intro ex fuel h
    match fuel, h with
    | fuel + 1, h2 =>
      have hlen : rest.length < fuel := by
        simp only [List.length_cons] at h2; omega
      simp [pollDrain, poll_closed_cons, ih true fuel hlen]

theorem pushItem_notMem (q : List (Entry K V W)) (i : Entry K V W)
    (h : i.key ∉ q.map (·.key)) : pushItem q i = q ++ [i] := by
  induction q with
  | nil => rfl
  | cons e rest ih =>
    have hek : ¬e.key = i.key := by
      intro hc
      exact h (by rw [← hc]; exact List.mem_cons_self _ _)
    have hrest : i.key ∉ rest.map (·.key) :=
      fun hc => h (List.mem_cons_of_mem _ hc)
    simp [pushItem, hek, ih hrest]

theorem pushItem_replaceFirst (i : Entry K V W) :
    ∀ (q1 q2 : List (Entry K V W)) (e : Entry K V W),
      e.key = i.key → i.key ∉ q1.map (·.key) →
      pushItem (q1 ++ e :: q2) i
        = q1 ++ (if e.version < i.version then i else e) :: q2 := by
  intro q1
  induction q1 with
  | nil =>
    intro q2 e hek _
    simp only [List.nil_append, pushItem, if_pos hek]
    by_cases hv : e.version < i.version <;> simp [hv]
  | cons f q1 ih =>
    intro q2 e hek hni
    have hfk : ¬f.key = i.key := by
      intro hc
      exact hni (by rw [← hc]; exact List.mem_cons_self _ _)
    have hrest : i.key ∉ q1.map (·.key) :=
      fun hc => hni (List.mem_cons_of_mem _ hc)
    simp only [List.cons_append, pushItem, if_neg hfk]
    show f :: pushItem (q1 ++ e :: q2) i
      = f :: (q1 ++ (if e.version < i.version then i else e) :: q2)
    rw [ih q2 e hek hrest]

/-- C2: the internal buffer keeps at most one entry per key, always with
the maximum version seen for that key; a drained item with a buffered key
replaces the stored entry in place exactly when its version is strictly
greater and is otherwise appended at the back; versions 1, 3, 2 for one key
leave exactly one buffered entry, with version 3, delivered once. -/
theorem c2_debounce_invariant :
    (∀ items : List (Entry K V W),
      ((List.foldl pushItem ([] : List (Entry K V W)) items).map (·.key)).Nodup ∧
      ∀ e ∈ List.foldl pushItem ([] : List (Entry K V W)) items,
        (∃ i ∈ items, i.key = e.key ∧ i.version = e.version) ∧
        (∀ i ∈ items, i.key = e.key → i.version ≤ e.version)) ∧
    (∀ (q : List (Entry K V W)) (i : Entry K V W),
      (i.key ∉ q.map (·.key) → pushItem q i = q ++ [i]) ∧
      (∀ (q1 q2 : List (Entry K V W)) (e : Entry K V W),
        q = q1 ++ e :: q2 → e.key = i.key → i.key ∉ q1.map (·.key) →
        pushItem q i = q1 ++ (if e.version < i.version then i else e) :: q2)) ∧
    (List.foldl pushItem ([] : List (Entry String Nat Nat))
        [⟨"doc1", 0, 1⟩, ⟨"doc1", 0, 3⟩, ⟨"doc1", 0, 2⟩] = [⟨"doc1", 0, 3⟩] ∧
      pollDrain (⟨List.foldl pushItem ([] : List (Entry String Nat Nat))
          [⟨"doc1", 0, 1⟩, ⟨"doc1", 0, 3⟩, ⟨"doc1", 0, 2⟩], false⟩ :
          UniqueStream String Nat Nat) 2
        = [⟨"doc1", 0, 3⟩]) := by
  refine ⟨?_, ?_, by decide, by decide⟩
  · intro items
    obtain ⟨hnd, hmain⟩ := foldl_pushItem_inv items [] (by simp)
    refine ⟨hnd, ?_⟩
    intro e he
    obtain ⟨hdom, _, horig⟩ := hmain e he
    refine ⟨?_, hdom⟩
    rcases horig with h | h
    · cases h
    · exact h
  · intro q i
    refine ⟨pushItem_notMem q i, ?_⟩
    intro q1 q2 e hq hek hni
    rw [hq]
    exact pushItem_replaceFirst i q1 q2 e hek hni

/-- C2 witness: appending a fresh key, discarding a lower version in place,
and the 1-3-2 scenario's buffer having unique keys. -/
theorem c2_witness :
    pushItem ([] : List (Entry String Nat Nat)) ⟨"doc1", 0, 1⟩
      = [] ++ [⟨"doc1", 0, 1⟩] ∧
    pushItem [(⟨"doc1", 0, 3⟩ : Entry String Nat Nat)] ⟨"doc1", 0, 2⟩
      = [] ++ (if (3 : Nat) < 2 then (⟨"doc1", 0, 2⟩ : Entry String Nat Nat)
          else ⟨"doc1", 0, 3⟩) :: [] ∧
    ((List.foldl pushItem ([] : List (Entry String Nat Nat))
        [⟨"doc1", 0, 1⟩, ⟨"doc1", 0, 3⟩, ⟨"doc1", 0, 2⟩]).map (·.key)).Nodup := by
  have h := @c2_debounce_invariant String Nat Nat _ _
  exact ⟨(h.2.1 [] ⟨"doc1", 0, 1⟩).1 (by decide),
    (h.2.1 [⟨"doc1", 0, 3⟩] ⟨"doc1", 0, 2⟩).2 [] [] ⟨"doc1", 0, 3⟩ rfl rfl (by decide),
    (h.1 [⟨"doc1", 0, 1⟩, ⟨"doc1", 0, 3⟩, ⟨"doc1", 0, 2⟩]).1⟩

/-- C7: for distinct keys `a` and `b` with `a` first sent before `b`,
draining the consumer delivers `a`'s entry before `b`'s: first-seen
insertion order of distinct keys is preserved (in-place version replacement
never moves a key). -/
theorem c7_cross_key_order (items : List (Entry K V W)) {a b : K} (hab : a ≠ b)
    (ha : a ∈ items.map (·.key)) (hb : b ∈ items.map (·.key))
    (hord : firstIdx a (items.map (·.key)) < firstIdx b (items.map (·.key)))
    (ex : Bool) (fuel : Nat)
    (hfuel : (List.foldl pushItem ([] : List (Entry K V W)) items).length < fuel) :
    a ∈ (pollDrain (⟨List.foldl pushItem [] items, ex⟩ : UniqueStream K V W)
        fuel).map (·.key) ∧
    b ∈ (pollDrain (⟨List.foldl pushItem [] items, ex⟩ : UniqueStream K V W)
        fuel).map (·.key) ∧
    firstIdx a ((pollDrain (⟨List.foldl pushItem [] items, ex⟩ : UniqueStream K V W)
        fuel).map (·.key)) <
      firstIdx b ((pollDrain (⟨List.foldl pushItem [] items, ex⟩ : UniqueStream K V W)
        fuel).map (·.key)) := by
  rw [pollDrain_queue _ ex fuel hfuel]
  exact foldl_keys_order items hab ha hb hord

/-- C7 witness: keys "a" then "b", delivered in that order. -/
theorem c7_witness :
    "a" ∈ (pollDrain (⟨List.foldl pushItem [] [⟨"a", 0, 1⟩, ⟨"b", 0, 2⟩], false⟩ :
        UniqueStream String Nat Nat) 3).map (·.key) ∧
    "b" ∈ (pollDrain (⟨List.foldl pushItem [] [⟨"a", 0, 1⟩, ⟨"b", 0, 2⟩], false⟩ :
        UniqueStream String Nat Nat) 3).map (·.key) ∧
    firstIdx "a" ((pollDrain (⟨List.foldl pushItem [] [⟨"a", 0, 1⟩, ⟨"b", 0, 2⟩], false⟩ :
        UniqueStream String Nat Nat) 3).map (·.key)) <
      firstIdx "b" ((pollDrain (⟨List.foldl pushItem [] [⟨"a", 0, 1⟩, ⟨"b", 0, 2⟩], false⟩ :
        UniqueStream String Nat Nat) 3).map (·.key)) :=
  c7_cross_key_order [⟨"a", 0, 1⟩, ⟨"b", 0, 2⟩] (by decide) (by decide) (by decide)
    (by decide) false 3 (by decide)

/-- C8: with every producer handle dropped and the buffer empty, `poll`
reports end-of-stream, and from the exhausted state every further poll —
whatever the channel then holds — keeps reporting end-of-stream. -/
theorem c8_end_of_stream_terminal :
    (∀ ex : Bool, UniqueStream.poll (⟨[], ex⟩ : UniqueStream K V W) [] true
        = (.ready none, ⟨[], true⟩)) ∧
    (∀ (pending : List (Entry K V W)) (closed : Bool),
      UniqueStream.poll (⟨[], true⟩ : UniqueStream K V W) pending closed
        = (.ready none, ⟨[], true⟩)) := by
  refine ⟨fun ex => poll_closed_nil ex, ?_⟩
  intro pending closed
  simp [UniqueStream.poll, drainLoop]

/-- C8 witness: both polls at concrete states. -/
theorem c8_witness :
    UniqueStream.poll (⟨[], false⟩ : UniqueStream Nat Nat Nat) [] true
      = (.ready none, ⟨[], true⟩) ∧
    UniqueStream.poll (⟨[], true⟩ : UniqueStream Nat Nat Nat) [⟨5, 6, 7⟩] false
      = (.ready none, ⟨[], true⟩) :=
  ⟨(@c8_end_of_stream_terminal Nat Nat Nat _ _).1 false,
    (@c8_end_of_stream_terminal Nat Nat Nat _ _).2 [⟨5, 6, 7⟩] false⟩

end Debounce

/-! ## Lemmas about the blocking-read bridge -/

/-- C3: with a non-empty debt buffer, `read` copies
`min(debt length, caller buffer length)` bytes out of the debt without
touching the worker channels; and a worker result longer than the caller's
buffer leaves its excess appended to the debt, which successive reads
return in full (never consulting the channels) before anything else. -/
theorem c3_debt_never_lost :
    (∀ (s : AsyncRead) (bufLen : Nat) (env env2 : ChanEnv), s.debt ≠ [] →
      s.read bufLen env
        = (.ok (s.debt.take (min s.debt.length bufLen)),
            ⟨s.debt.drop (min s.debt.length bufLen)⟩) ∧
      s.read bufLen env = s.read bufLen env2) ∧
    (∀ (s : AsyncRead) (bufLen : Nat) (buffer : List UInt8) (env : ChanEnv),
      s.debt = [] → env.recv1 = .readySome (.ok buffer) →
      s.read bufLen env
        = (.ok (buffer.take (min buffer.length bufLen)),
            ⟨buffer.drop (min buffer.length bufLen)⟩)) ∧
    (∀ (s : AsyncRead) (sizes : List Nat) (env : ChanEnv),
      (∀ n ∈ sizes, 0 < n) → sizes.sum ≤ s.debt.length →
      s.readMany sizes env = (s.debt.take sizes.sum, ⟨s.debt.drop sizes.sum⟩)) := by
  have hdebt : ∀ (s : AsyncRead) (bufLen : Nat) (env : ChanEnv), s.debt ≠ [] →
      s.read bufLen env
        = (.ok (s.debt.take (min s.debt.length bufLen)),
            ⟨s.debt.drop (min s.debt.length bufLen)⟩) := by
    intro s bufLen env h
    have hne : s.debt.isEmpty = false := by
      simp [List.isEmpty_iff, h]
    simp [AsyncRead.read, hne]
  refine ⟨?_, ?_, ?_⟩
  · intro s bufLen env env2 h
    exact ⟨hdebt s bufLen env h, by rw [hdebt s bufLen env h, hdebt s bufLen env2 h]⟩
  · intro s bufLen buffer env hd hr
    simp [AsyncRead.read, hd, hr, AsyncRead.handle_input]
  · intro s sizes
    induction sizes generalizing s with
    | nil =>
      intro env _ _
      simp [AsyncRead.readMany]
    | cons n rest ih =>
      intro env hpos hsum
      have hn : 0 < n := hpos n (List.mem_cons_self n rest)
      have hsum2 : n + rest.sum ≤ s.debt.length := by
        simpa [List.sum_cons] using hsum
      have hne : s.debt ≠ [] := by
        intro hc
        rw [hc] at hsum2
        simp at hsum2
        omega
      have hmin : min s.debt.length n = n := Nat.min_eq_right (by omega)
      have hread := hdebt s n env hne
      rw [hmin] at hread
      have hlen2 : rest.sum ≤ (s.debt.drop n).length := by
        rw [List.length_drop]; omega
      simp only [AsyncRead.readMany, hread]
      rw [ih ⟨s.debt.drop n⟩ env (fun m hm => hpos m (List.mem_cons_of_mem n hm)) hlen2]
      simp only [List.sum_cons, List.drop_drop]
      rw [← List.take_add]

/-- C3 witness: a three-byte debt drained by a two-byte then one-byte read,
and a three-byte result against a two-byte caller buffer. -/
theorem c3_witness :
    AsyncRead.read ⟨[1, 2, 3]⟩ 2 ⟨.errRecv, .errSend, .errRecv⟩
      = (.ok ([1, 2, 3].take (min 3 2)), ⟨[1, 2, 3].drop (min 3 2)⟩) ∧
    AsyncRead.read ⟨[]⟩ 2 ⟨.readySome (.ok [5, 6, 7]), .ready, .notReady⟩
      = (.ok ([5, 6, 7].take (min 3 2)), ⟨[5, 6, 7].drop (min 3 2)⟩) ∧
    AsyncRead.readMany ⟨[1, 2, 3]⟩ [2, 1] ⟨.errRecv, .errSend, .errRecv⟩
      = ([1, 2, 3].take 3, ⟨[1, 2, 3].drop 3⟩) := by
  have h := c3_debt_never_lost
  exact ⟨(h.1 ⟨[1, 2, 3]⟩ 2 ⟨.errRecv, .errSend, .errRecv⟩
      ⟨.errRecv, .errSend, .errRecv⟩ (by decide)).1,
    h.2.1 ⟨[]⟩ 2 [5, 6, 7] ⟨.readySome (.ok [5, 6, 7]), .ready, .notReady⟩ rfl rfl,
    h.2.2 ⟨[1, 2, 3]⟩ [2, 1] ⟨.errRecv, .errSend, .errRecv⟩ (by decide) (by decide)⟩

/-- C6: with empty debt and no ready result, a full request queue or a
failed send with a result still possible yields a would-block error; only a
dead worker with no possible result yields the fatal "Read thread has
stopped" error; and a worker I/O error is returned verbatim. -/
theorem c6_error_propagation :
    (∀ (s : AsyncRead) (bufLen : Nat) (env : ChanEnv), s.debt = [] →
      env.recv1 = .notReady → env.send = .sinkNotReady →
      s.read bufLen env = (.error wouldBlockError, s)) ∧
    (∀ (s : AsyncRead) (bufLen : Nat) (env : ChanEnv), s.debt = [] →
      env.recv1 = .notReady → env.send = .errSend → env.recv2 = .notReady →
      s.read bufLen env = (.error wouldBlockError, s)) ∧
    (∀ (s : AsyncRead) (bufLen : Nat) (env : ChanEnv), s.debt = [] →
      env.recv1 = .notReady → env.send = .errSend → env.recv2 = .errRecv →
      s.read bufLen env = (.error threadStoppedError, s)) ∧
    (∀ (s : AsyncRead) (bufLen : Nat) (env : ChanEnv) (e : IOError), s.debt = [] →
      env.recv1 = .readySome (.error e) →
      s.read bufLen env = (.error e, s)) ∧
    (∀ (s : AsyncRead) (bufLen : Nat) (env : ChanEnv) (e : IOError), s.debt = [] →
      env.recv1 = .notReady → env.send = .ready → env.recv2 = .readySome (.error e) →
      s.read bufLen env = (.error e, s)) := by
  refine ⟨?_, ?_, ?_, ?_, ?_⟩
  · intro s bufLen env hd h1 h2
    simp [AsyncRead.read, hd, h1, h2]
  · intro s bufLen env hd h1 h2 h3
    simp [AsyncRead.read, hd, h1, h2, h3]
  · intro s bufLen env hd h1 h2 h3
    simp [AsyncRead.read, hd, h1, h2, h3]
  · intro s bufLen env e hd h1
    simp [AsyncRead.read, hd, h1, AsyncRead.handle_input]
  · intro s bufLen env e hd h1 h2 h3
    simp [AsyncRead.read, hd, h1, h2, h3, AsyncRead.handle_input]

/-- C6 witness: each error path at a concrete state. -/
theorem c6_witness :
    AsyncRead.read ⟨[]⟩ 4 ⟨.notReady, .sinkNotReady, .notReady⟩
      = (.error wouldBlockError, ⟨[]⟩) ∧
    AsyncRead.read ⟨[]⟩ 4 ⟨.notReady, .errSend, .notReady⟩
      = (.error wouldBlockError, ⟨[]⟩) ∧
    AsyncRead.read ⟨[]⟩ 4 ⟨.notReady, .errSend, .errRecv⟩
      = (.error threadStoppedError, ⟨[]⟩) ∧
    AsyncRead.read ⟨[]⟩ 4 ⟨.readySome (.error ⟨.other, "disk failure"⟩), .ready, .notReady⟩
      = (.error ⟨.other, "disk failure"⟩, ⟨[]⟩) ∧
    AsyncRead.read ⟨[]⟩ 4 ⟨.notReady, .ready, .readySome (.error ⟨.other, "disk failure"⟩)⟩
      = (.error ⟨.other, "disk failure"⟩, ⟨[]⟩) := by
  have h := c6_error_propagation
  exact ⟨h.1 ⟨[]⟩ 4 _ rfl rfl rfl,
    h.2.1 ⟨[]⟩ 4 _ rfl rfl rfl rfl,
    h.2.2.1 ⟨[]⟩ 4 _ rfl rfl rfl rfl,
    h.2.2.2.1 ⟨[]⟩ 4 _ ⟨.other, "disk failure"⟩ rfl rfl,
    h.2.2.2.2 ⟨[]⟩ 4 _ ⟨.other, "disk failure"⟩ rfl rfl rfl rfl⟩

/-- C10: a zero-length caller buffer makes `read` return zero bytes even
when data is available: a non-empty debt is left untouched, and a ready
non-empty worker result is moved wholesale into the debt buffer — so a
zero return does not mean end-of-input. -/
theorem c10_zero_length_read :
    (∀ (s : AsyncRead) (env : ChanEnv), s.debt ≠ [] →
      s.read 0 env = (.ok [], s)) ∧
    (∀ (s : AsyncRead) (env : ChanEnv) (buffer : List UInt8), s.debt = [] →
      env.recv1 = .readySome (.ok buffer) →
      s.read 0 env = (.ok [], ⟨buffer⟩)) := by
  constructor
  · intro s env h
    have hne : s.debt.isEmpty = false := by
      simp [List.isEmpty_iff, h]
    simp [AsyncRead.read, hne]
  · intro s env buffer hd hr
    simp [AsyncRead.read, hd, hr, AsyncRead.handle_input]

/-- C10 witness: zero-length reads against a pending debt and against a
ready three-byte result. -/
theorem c10_witness :
    AsyncRead.read ⟨[9, 8]⟩ 0 ⟨.notReady, .ready, .notReady⟩ = (.ok [], ⟨[9, 8]⟩) ∧
    AsyncRead.read ⟨[]⟩ 0 ⟨.readySome (.ok [5, 6, 7]), .ready, .notReady⟩
      = (.ok [], ⟨[5, 6, 7]⟩) :=
  ⟨c10_zero_length_read.1 ⟨[9, 8]⟩ _ (by decide),
    c10_zero_length_read.2 ⟨[]⟩ _ [5, 6, 7] rfl rfl⟩
